import Mathlib

/-!
# Verification of `aten/src/ATen/native/cpu/TensorCompareKernel.cpp`

A shallow embedding of the CPU tensor-compare kernels: the min/max-with-index
reductions (`min_kernel_impl`, `max_kernel_impl` built on `compare_base_kernel`),
the ternary select kernel (`where_kernel_impl`) and the infinity predicates
(`isposinf_kernel_impl`, `isneginf_kernel_impl`), together with theorems about
their per-lane scan semantics, shape bookkeeping, index bounds and error checks.

Machine floating-point values are modelled by `FP`: NaN, the two infinities and
exact finite values (as rationals).  No rounding arithmetic occurs in the
kernels - elements are only compared - so this idealisation is exact for the
ordering behaviour the kernels rely on.  IEEE comparisons (any comparison with
a NaN operand is false) are modelled by `fpLe`/`fpGe`/`fpEq`.
-/

namespace TensorCompare

/-- An IEEE-style scalar value: NaN, an infinity (`inf true` is `+∞`,
`inf false` is `-∞`), or a finite value. -/
inductive FP where
  | nan : FP
  | inf : Bool → FP
  | fin : ℚ → FP
deriving DecidableEq

instance : Inhabited FP := ⟨FP.nan⟩

/-- NaN test on an `FP` value (`std::isnan`). -/
def FP.isNan : FP → Bool
  | .nan => true
  | _ => false

/-- IEEE `<=`: false whenever either operand is NaN, the extended-real order
otherwise. -/
def fpLe : FP → FP → Bool
  | .nan, _ => false
  | _, .nan => false
  | .inf b, .inf c => !b || c
  | .inf b, .fin _ => !b
  | .fin _, .inf c => c
  | .fin p, .fin q => decide (p ≤ q)

/-- IEEE `>=`, as used in the scan's update conditions. -/
def fpGe (a b : FP) : Bool := fpLe b a

/-- IEEE `==`: false whenever either operand is NaN. -/
def fpEq : FP → FP → Bool
  | .nan, _ => false
  | _, .nan => false
  | .inf b, .inf c => b == c
  | .fin p, .fin q => decide (p = q)
  | _, _ => false

theorem fpLe_nan_left (a : FP) : fpLe FP.nan a = false := by
  cases a <;> rfl

theorem fpLe_nan_right (a : FP) : fpLe a FP.nan = false := by
  cases a <;> rfl

theorem fpLe_refl (a : FP) (h : a.isNan = false) : fpLe a a = true := by
  cases a with
  | nan => simp [FP.isNan] at h
  | inf b => cases b <;> rfl
  | fin q => simp [fpLe]

theorem fpLe_total (a b : FP) (ha : a.isNan = false) (hb : b.isNan = false) :
    fpLe a b = true ∨ fpLe b a = true := by
  cases a with
  | nan => simp [FP.isNan] at ha
  | inf p =>
    cases b with
    | nan => simp [FP.isNan] at hb
    | inf q => cases p <;> cases q <;> simp [fpLe]
    | fin q => cases p <;> simp [fpLe]
  | fin p =>
    cases b with
    | nan => simp [FP.isNan] at hb
    | inf q => cases q <;> simp [fpLe]
    | fin q => simpa [fpLe] using le_total p q

theorem fpLe_trans (a b c : FP) (h1 : fpLe a b = true) (h2 : fpLe b c = true) :
    fpLe a c = true := by
  cases a <;> cases b <;> cases c <;> simp_all [fpLe] <;>
    try (rcases h1 with h | h <;> rcases h2 with g | g <;> simp_all)
  all_goals linarith

/-- A non-NaN `fpLe` comparison that fails flips around: used to read the
scan's strict update condition. -/
theorem fpLe_of_not_fpLe (a b : FP) (ha : a.isNan = false) (hb : b.isNan = false)
    (h : fpLe a b = false) : fpLe b a = true := by
  rcases fpLe_total a b ha hb with h' | h'
  · rw [h'] at h; cases h
  · exact h'

/-- An element domain for the min/max scans, per the source's type-generic
dispatch: `key` is the ordering-key projection `zabs` (identity for real
element domains, the modulus for complex ones), `isnan` is `_isnan`
(component-wise NaN test for complex).  `key_nan` records that a non-NaN
element never has a NaN ordering key, which holds in every dispatched
domain. -/
structure Dom (α : Type) where
  key : α → FP
  isnan : α → Bool
  key_nan : ∀ x, isnan x = false → (key x).isNan = false

/-- The inner loop of `min_kernel_impl` / `max_kernel_impl` (lines 92-101 and
129-138 of the source), scanning the remaining lane elements `l` at axis
position `i`, with current best value `best` found at axis position `bi`.
`cmp kv kb` is the "unless" condition `zabs_(value) >= zabs_(min_number)`
(for min; `<=` for max): when it fails the best is updated, and if the newly
stored value is NaN the scan breaks immediately. -/
def scanGo (D : Dom α) (cmp : FP → FP → Bool) : List α → α → Nat → Nat → α × Nat
  | [], best, bi, _ => (best, bi)
  | v :: rest, best, bi, i =>
    if cmp (D.key v) (D.key best) then
      scanGo D cmp rest best bi (i + 1)
    else if D.isnan v then
      (v, i)
    else
      scanGo D cmp rest v i (i + 1)

/-- One full lane scan over the nonempty lane `x :: xs`: the best is
initialised to `self_data[0]` (that is, `x`) with index 0, and the loop runs
from `i = 0` over every element - so the first iteration compares the
initial element with itself, exactly as in the source. -/
def laneScan (D : Dom α) (cmp : FP → FP → Bool) (x : α) (xs : List α) : α × Nat :=
  scanGo D cmp (x :: xs) x 0 0

/-- The per-lane body of `min_kernel_impl`. -/
def minLane (D : Dom α) (x : α) (xs : List α) : α × Nat := laneScan D fpGe x xs

/-- The per-lane body of `max_kernel_impl`. -/
def maxLane (D : Dom α) (x : α) (xs : List α) : α × Nat := laneScan D fpLe x xs

/-- A lane scan on a lane given as a plain list.  The kernels only ever scan
lanes of extent at least 1 (the axis-validity guard), so the `[]` case is
unreachable there. -/
def scanLane [Inhabited α] (D : Dom α) (cmp : FP → FP → Bool) : List α → α × Nat
  | [] => (default, 0)
  | x :: xs => laneScan D cmp x xs

/-- `min_scan` on a whole lane. -/
def minScan [Inhabited α] (D : Dom α) (l : List α) : α × Nat := scanLane D fpGe l

/-- `max_scan` on a whole lane. -/
def maxScan [Inhabited α] (D : Dom α) (l : List α) : α × Nat := scanLane D fpLe l

/-- The same loop with the NaN break removed; used to state that the break
is unreachable for domains whose `_isnan` is constantly false. -/
def scanNoBreak (D : Dom α) (cmp : FP → FP → Bool) : List α → α → Nat → Nat → α × Nat
  | [], best, bi, _ => (best, bi)
  | v :: rest, best, bi, i =>
    if cmp (D.key v) (D.key best) then
      scanNoBreak D cmp rest best bi (i + 1)
    else
      scanNoBreak D cmp rest v i (i + 1)

/-! ## The dispatched element domains -/

/-- Real floating domains (`float`, `double`): `zabs` is the identity and
`_isnan` the IEEE NaN test. -/
def FloatDom : Dom FP := ⟨id, FP.isNan, fun _ h => h⟩

/-- Integral domains (`uint8_t` ... `int64_t`): `zabs` is the identity
(embedded into the common key space order-faithfully) and `_isnan` is
constantly false. -/
def IntDom : Dom ℤ := ⟨fun n => .fin (n : ℚ), fun _ => false, fun _ _ => rfl⟩

/-- The `bool` domain (dispatched via `AT_DISPATCH_..._AND(ScalarType::Bool)`):
comparison happens after integral promotion, `false` as 0 and `true` as 1,
and `_isnan` is constantly false. -/
def BoolDom : Dom Bool :=
  ⟨fun b => .fin (if b then 1 else 0), fun _ => false, fun b _ => by cases b <;> rfl⟩

/-- Component-wise NaN test on a complex value (`_isnan` for `c10::complex`). -/
def cIsNan (z : FP × FP) : Bool := z.1.isNan || z.2.isNan

/-- The complex ordering key, `zabs z = std::abs(z)`.  Per C99/C++ `hypot`
semantics the magnitude is `+∞` whenever either component is infinite (even
if the other is NaN), NaN when a component is NaN and none is infinite, and
the usual modulus on finite components.  Finite magnitudes are modelled by
the squared modulus, which is order- and NaN-equivalent to the modulus; the
kernels only ever compare magnitudes. -/
def cAbs : FP × FP → FP
  | (.inf _, _) => .inf true
  | (_, .inf _) => .inf true
  | (.nan, _) => .nan
  | (_, .nan) => .nan
  | (.fin a, .fin b) => .fin (a * a + b * b)

/-- Complex domains (`complex<float>`, `complex<double>`). -/
def CxDom : Dom (FP × FP) :=
  ⟨cAbs, cIsNan, by
    intro z h
    obtain ⟨a, b⟩ := z
    cases a <;> cases b <;> simp_all [cAbs, cIsNan, FP.isNan]⟩

/-! ## Step lemmas for the scan -/

theorem scanGo_nil (D : Dom α) (cmp : FP → FP → Bool) (b : α) (bi i : Nat) :
    scanGo D cmp [] b bi i = (b, bi) := rfl

theorem scanGo_cons_skip (D : Dom α) (cmp : FP → FP → Bool)
    {v b : α} (rest : List α) (bi i : Nat)
    (h : cmp (D.key v) (D.key b) = true) :
    scanGo D cmp (v :: rest) b bi i = scanGo D cmp rest b bi (i + 1) := by
  simp [scanGo, h]

theorem scanGo_cons_break (D : Dom α) (cmp : FP → FP → Bool)
    {v b : α} (rest : List α) (bi i : Nat)
    (hc : cmp (D.key v) (D.key b) = false) (hn : D.isnan v = true) :
    scanGo D cmp (v :: rest) b bi i = (v, i) := by
  simp [scanGo, hc, hn]

theorem scanGo_cons_update (D : Dom α) (cmp : FP → FP → Bool)
    {v b : α} (rest : List α) (bi i : Nat)
    (hc : cmp (D.key v) (D.key b) = false) (hn : D.isnan v = false) :
    scanGo D cmp (v :: rest) b bi i = scanGo D cmp rest v i (i + 1) := by
  simp [scanGo, hc, hn]

/-! ## Characterisation of the scan on NaN-free lanes -/

/-- On a NaN-free suffix, the scan returns either the incoming best
unchanged, or an element `z` of the suffix at absolute axis position
`i + l1.length` that is strictly below (in the scan's order `R`) the
incoming best and every element preceding it in the suffix. -/
theorem scanGo_char (D : Dom α) (cmp R : FP → FP → Bool)
    (hcmp : ∀ a b, cmp a b = R b a)
    (htot : ∀ a b, a.isNan = false → b.isNan = false → R a b = true ∨ R b a = true)
    (htrans : ∀ a b c, R a b = true → R b c = true → R a c = true)
    (hrefl : ∀ a, a.isNan = false → R a a = true) :
    ∀ (l : List α) (b : α) (bi i : Nat),
      (∀ y ∈ l, D.isnan y = false) → D.isnan b = false →
      D.isnan (scanGo D cmp l b bi i).1 = false ∧
      R (D.key (scanGo D cmp l b bi i).1) (D.key b) = true ∧
      (∀ y ∈ l, R (D.key (scanGo D cmp l b bi i).1) (D.key y) = true) ∧
      (scanGo D cmp l b bi i = (b, bi) ∨
        ∃ l1 z l2, l = l1 ++ z :: l2 ∧
          scanGo D cmp l b bi i = (z, i + l1.length) ∧
          R (D.key b) (D.key z) = false ∧
          ∀ u ∈ l1, R (D.key u) (D.key z) = false) := by
  intro l
  induction l with
  | nil =>
    intro b bi i _ hb
    refine ⟨hb, hrefl _ (D.key_nan b hb), ?_, Or.inl rfl⟩
    intro y hy
    cases hy
  | cons v rest ih =>
    intro b bi i hl hb
    have hv : D.isnan v = false := hl v (List.mem_cons_self v rest)
    have hrest : ∀ y ∈ rest, D.isnan y = false := fun y hy => hl y (List.mem_cons_of_mem _ hy)
    by_cases hc : cmp (D.key v) (D.key b) = true
    · -- the "unless" condition holds: the scan skips `v`
      rw [scanGo_cons_skip D cmp rest bi i hc]
      have hbv : R (D.key b) (D.key v) = true := by rw [hcmp] at hc; exact hc
      obtain ⟨ih1, ih2, ih3, ih4⟩ := ih b bi (i + 1) hrest hb
      refine ⟨ih1, ih2, ?_, ?_⟩
      · intro y hy
        rcases List.mem_cons.mp hy with rfl | hy'
        · exact htrans _ _ _ ih2 hbv
        · exact ih3 y hy'
      · rcases ih4 with h | ⟨l1, z, l2, hsplit, hres, hlt, hall⟩
        · exact Or.inl h
        · refine Or.inr ⟨v :: l1, z, l2, by rw [hsplit]; simp, ?_, hlt, ?_⟩
          · rw [hres]
            simp only [List.length_cons, Prod.mk.injEq]
            exact ⟨by trivial, by omega⟩
          · intro u hu
            rcases List.mem_cons.mp hu with rfl | hu'
            · cases hR : R (D.key u) (D.key z)
              · rfl
              · have : R (D.key b) (D.key z) = true := htrans _ _ _ hbv hR
                rw [this] at hlt
                cases hlt
            · exact hall u hu'
    · -- the update fires: `v` becomes the best (no break, `v` is not NaN)
      have hcf : cmp (D.key v) (D.key b) = false := by
        cases h : cmp (D.key v) (D.key b)
        · rfl
        · exact absurd h hc
      rw [scanGo_cons_update D cmp rest bi i hcf hv]
      have hbvf : R (D.key b) (D.key v) = false := by rw [hcmp] at hcf; exact hcf
      have hvb : R (D.key v) (D.key b) = true := by
        rcases htot _ _ (D.key_nan v hv) (D.key_nan b hb) with h | h
        · exact h
        · rw [h] at hbvf; cases hbvf
      obtain ⟨ih1, ih2, ih3, ih4⟩ := ih v i (i + 1) hrest hv
      refine ⟨ih1, htrans _ _ _ ih2 hvb, ?_, ?_⟩
      · intro y hy
        rcases List.mem_cons.mp hy with rfl | hy'
        · exact ih2
        · exact ih3 y hy'
      · rcases ih4 with h | ⟨l1, z, l2, hsplit, hres, hlt, hall⟩
        · refine Or.inr ⟨[], v, rest, rfl, ?_, hbvf, ?_⟩
          · rw [h]
            simp
          · intro u hu
            cases hu
        · have hz : D.isnan z = false := by
            refine hrest z ?_
            rw [hsplit]
            exact List.mem_append_right _ (List.mem_cons_self z l2)
          refine Or.inr ⟨v :: l1, z, l2, by rw [hsplit]; simp, ?_, ?_, ?_⟩
          · rw [hres]
            simp only [List.length_cons, Prod.mk.injEq]
            exact ⟨by trivial, by omega⟩
          · cases hR : R (D.key b) (D.key z)
            · rfl
            · rcases htot (D.key v) (D.key z) (D.key_nan v hv) (D.key_nan z hz) with h' | h'
              · rw [h'] at hlt; cases hlt
              · have : R (D.key b) (D.key v) = true := htrans _ _ _ hR h'
                rw [this] at hbvf
                cases hbvf
          · intro u hu
            rcases List.mem_cons.mp hu with rfl | hu'
            · exact hlt
            · exact hall u hu'

theorem fpGe_refl (a : FP) (h : a.isNan = false) : fpGe a a = true := fpLe_refl a h

theorem fpGe_total (a b : FP) (ha : a.isNan = false) (hb : b.isNan = false) :
    fpGe a b = true ∨ fpGe b a = true := fpLe_total b a hb ha

theorem fpGe_trans (a b c : FP) (h1 : fpGe a b = true) (h2 : fpGe b c = true) :
    fpGe a c = true := fpLe_trans c b a h2 h1

/-- `r` is the result of picking, over the lane, the element extremal for the
reflexive comparison `R` of ordering keys (`fpLe` for min, `fpGe` for max),
with the index of its first occurrence: the returned index is in bounds, the
returned value is the lane element at that index, its key is `R`-below every
key of the lane, and every strictly earlier element has a different
(hence strictly worse) key - so an equal-key later element is never selected. -/
def FirstExtremal (D : Dom α) (R : FP → FP → Bool) (lane : List α) (r : α × Nat) : Prop :=
  ∃ hj : r.2 < lane.length,
    r.1 = lane.get ⟨r.2, hj⟩ ∧
    (∀ i (hi : i < lane.length), R (D.key r.1) (D.key (lane.get ⟨i, hi⟩)) = true) ∧
    (∀ i (hi : i < lane.length), i < r.2 → D.key (lane.get ⟨i, hi⟩) ≠ D.key r.1)

/-- The element of a list at the split point of an append decomposition. -/
theorem get_eq_of_append (L l1 : List α) (z : α) (l2 : List α) (hL : L = l1 ++ z :: l2)
    (hj : l1.length < L.length) : L.get ⟨l1.length, hj⟩ = z := by
  have hq : L[l1.length]? = some z := by
    rw [hL, List.getElem?_append_right (le_refl _)]
    simp
  rw [List.getElem?_eq_getElem hj] at hq
  simpa using hq

/-- An element strictly before the split point of an append decomposition. -/
theorem get_eq_of_append_lt (L l1 : List α) (z : α) (l2 : List α) (hL : L = l1 ++ z :: l2)
    (i : Nat) (hi1 : i < l1.length) (hi : i < L.length) :
    L.get ⟨i, hi⟩ = l1.get ⟨i, hi1⟩ := by
  have hq : L[i]? = l1[i]? := by
    rw [hL, List.getElem?_append, if_pos hi1]
  rw [List.getElem?_eq_getElem hi, List.getElem?_eq_getElem hi1] at hq
  simpa using hq

/-- The lane scan on a NaN-free lane selects the first `R`-extremal element. -/
theorem laneScan_firstExtremal (D : Dom α) (cmp R : FP → FP → Bool)
    (hcmp : ∀ a b, cmp a b = R b a)
    (htot : ∀ a b, a.isNan = false → b.isNan = false → R a b = true ∨ R b a = true)
    (htrans : ∀ a b c, R a b = true → R b c = true → R a c = true)
    (hrefl : ∀ a, a.isNan = false → R a a = true)
    (x : α) (xs : List α)
    (h : ∀ y ∈ x :: xs, D.isnan y = false) :
    FirstExtremal D R (x :: xs) (laneScan D cmp x xs) := by
  have hx : D.isnan x = false := h x (List.mem_cons_self x xs)
  obtain ⟨h1, h2, h3, h4⟩ :=
    scanGo_char D cmp R hcmp htot htrans hrefl (x :: xs) x 0 0 h hx
  unfold FirstExtremal laneScan
  rcases h4 with heq | ⟨l1, z, l2, hsplit, hres, hlt, hall⟩
  · -- the initial element is never strictly beaten: the result is `(x, 0)`
    rw [heq]
    refine ⟨Nat.succ_pos _, rfl, ?_, ?_⟩
    · intro i hi
      have := h3 ((x :: xs).get ⟨i, hi⟩) (List.get_mem _ _ _)
      rw [heq] at this
      exact this
    · intro i hi hlt0
      exact absurd hlt0 (Nat.not_lt_zero i)
  · -- the result is the element `z` at position `l1.length`
    simp only [Nat.zero_add] at hres
    have hjlt : l1.length < (x :: xs).length := by
      rw [hsplit]
      simp only [List.length_append, List.length_cons]
      omega
    have hget : (x :: xs).get ⟨l1.length, hjlt⟩ = z :=
      get_eq_of_append _ l1 z l2 hsplit hjlt
    have hz : D.isnan z = false := by
      refine h z ?_
      rw [hsplit]
      exact List.mem_append_right _ (List.mem_cons_self z l2)
    rw [hres]
    refine ⟨hjlt, hget.symm, ?_, ?_⟩
    · intro i hi
      have := h3 ((x :: xs).get ⟨i, hi⟩) (List.get_mem _ _ _)
      rw [hres] at this
      exact this
    · intro i hi hilt
      have hil1 : i < l1.length := hilt
      have hgeti : (x :: xs).get ⟨i, hi⟩ = l1.get ⟨i, hil1⟩ :=
        get_eq_of_append_lt _ l1 z l2 hsplit i hil1 hi
      rw [hgeti]
      intro hkeq
      have hkeq' : D.key (l1.get ⟨i, hil1⟩) = D.key z := hkeq
      have hne := hall _ (List.get_mem l1 i hil1)
      rw [hkeq'] at hne
      rw [hrefl _ (D.key_nan z hz)] at hne
      simp at hne

/-- C1: for every lane in which no element along the reduction axis is NaN,
`min_kernel_impl` (resp. `max_kernel_impl`) selects the element whose ordering
key (`zabs`: identity for real domains, magnitude for complex domains) is
minimal (resp. maximal), together with the axis position of the first
occurrence of that extremal key - equal-key later elements are never
selected.  Stated per lane over any dispatched element domain. -/
theorem no_nan_min_max_select_first_extremal (D : Dom α) (x : α) (xs : List α)
    (h : ∀ y ∈ x :: xs, D.isnan y = false) :
    FirstExtremal D fpLe (x :: xs) (minLane D x xs) ∧
    FirstExtremal D fpGe (x :: xs) (maxLane D x xs) := by
  constructor
  · exact laneScan_firstExtremal D fpGe fpLe (fun a b => rfl)
      fpLe_total fpLe_trans fpLe_refl x xs h
  · exact laneScan_firstExtremal D fpLe fpGe (fun a b => rfl)
      fpGe_total fpGe_trans fpGe_refl x xs h

/-- Witness for C1 on the concrete NaN-free lane `[3, 1, 1]`. -/
theorem no_nan_min_max_select_first_extremal_witness :
    (∀ y ∈ [FP.fin 3, FP.fin 1, FP.fin 1], FloatDom.isnan y = false) ∧
    (FirstExtremal FloatDom fpLe [FP.fin 3, FP.fin 1, FP.fin 1]
        (minLane FloatDom (FP.fin 3) [FP.fin 1, FP.fin 1]) ∧
      FirstExtremal FloatDom fpGe [FP.fin 3, FP.fin 1, FP.fin 1]
        (maxLane FloatDom (FP.fin 3) [FP.fin 1, FP.fin 1])) :=
  ⟨by decide,
    no_nan_min_max_select_first_extremal FloatDom (FP.fin 3) [FP.fin 1, FP.fin 1] (by decide)⟩

/-- Scanning through a NaN-free prefix and then an element whose ordering key
is NaN: the update rule fires there (an IEEE comparison with a NaN operand is
false), the element and its position are stored, and the scan breaks without
examining any later element (the result does not depend on `ys`). -/
theorem scanGo_halts (D : Dom α) (cmp : FP → FP → Bool)
    (hcmpnan : ∀ k, cmp FP.nan k = false) :
    ∀ (pre : List α) (z : α) (ys : List α) (b : α) (bi i : Nat),
      (∀ y ∈ pre, D.isnan y = false) → D.isnan z = true → D.key z = FP.nan →
      scanGo D cmp (pre ++ z :: ys) b bi i = (z, i + pre.length) := by
  intro pre
  induction pre with
  | nil =>
    intro z ys b bi i _ hz hk
    have hc : cmp (D.key z) (D.key b) = false := by rw [hk]; exact hcmpnan _
    rw [List.nil_append, scanGo_cons_break D cmp ys bi i hc hz]
    simp
  | cons v pre' ih =>
    intro z ys b bi i hpre hz hk
    have hv : D.isnan v = false := hpre v (List.mem_cons_self v pre')
    have hpre' : ∀ y ∈ pre', D.isnan y = false :=
      fun y hy => hpre y (List.mem_cons_of_mem _ hy)
    rw [List.cons_append]
    by_cases hc : cmp (D.key v) (D.key b) = true
    · rw [scanGo_cons_skip D cmp _ bi i hc, ih z ys b bi (i + 1) hpre' hz hk]
      simp only [List.length_cons, Prod.mk.injEq]
      exact ⟨by trivial, by omega⟩
    · have hcf : cmp (D.key v) (D.key b) = false := by
        cases hcc : cmp (D.key v) (D.key b)
        · rfl
        · exact absurd hcc hc
      rw [scanGo_cons_update D cmp _ bi i hcf hv, ih z ys v i (i + 1) hpre' hz hk]
      simp only [List.length_cons, Prod.mk.injEq]
      exact ⟨by trivial, by omega⟩

/-- C2 as amended: on a lane whose elements before position `k` are not NaN
and whose element at `k` has a NaN ordering key (for real floating domains
that is exactly: the first NaN sits at position `k`), both scans store that
element with index `k` and terminate at once - later positions (`ys`, fully
arbitrary) are never examined. -/
theorem first_nan_key_poisons_and_halts [Inhabited α] (D : Dom α)
    (pre : List α) (z : α) (ys : List α)
    (hpre : ∀ y ∈ pre, D.isnan y = false)
    (hz : D.isnan z = true) (hk : D.key z = FP.nan) :
    minScan D (pre ++ z :: ys) = (z, pre.length) ∧
    maxScan D (pre ++ z :: ys) = (z, pre.length) := by
  have hmin : ∀ k, fpGe FP.nan k = false := fun k => fpLe_nan_right k
  have hmax : ∀ k, fpLe FP.nan k = false := fun k => fpLe_nan_left k
  cases pre with
  | nil =>
    have h1 := scanGo_halts D fpGe hmin [] z ys z 0 0 (by intro y hy; cases hy) hz hk
    have h2 := scanGo_halts D fpLe hmax [] z ys z 0 0 (by intro y hy; cases hy) hz hk
    simp only [List.nil_append] at h1 h2
    constructor
    · simpa [minScan, scanLane, laneScan] using h1
    · simpa [maxScan, scanLane, laneScan] using h2
  | cons p pre' =>
    have hp : ∀ y ∈ p :: pre', D.isnan y = false := hpre
    have h1 := scanGo_halts D fpGe hmin (p :: pre') z ys p 0 0 hp hz hk
    have h2 := scanGo_halts D fpLe hmax (p :: pre') z ys p 0 0 hp hz hk
    constructor
    · simpa [minScan, scanLane, laneScan] using h1
    · simpa [maxScan, scanLane, laneScan] using h2

/-- Witness for the amended C2: `min`/`max` over the real floating lane
`[3.0, NaN, 1.0]` yield `(NaN, 1)` - the spec's own example. -/
theorem first_nan_key_poisons_and_halts_witness :
    (∀ y ∈ [FP.fin 3], FloatDom.isnan y = false) ∧
    FloatDom.isnan FP.nan = true ∧ FloatDom.key FP.nan = FP.nan ∧
    (minScan FloatDom ([FP.fin 3] ++ FP.nan :: [FP.fin 1]) = (FP.nan, 1) ∧
      maxScan FloatDom ([FP.fin 3] ++ FP.nan :: [FP.fin 1]) = (FP.nan, 1)) :=
  ⟨by decide, by decide, by decide,
    first_nan_key_poisons_and_halts FloatDom [FP.fin 3] FP.nan [FP.fin 1]
      (by decide) (by decide) rfl⟩

/-- C2 counterexample: the complex lane `[5+0i, ∞+NaN·i]` contains a NaN
element at position 1 (its first NaN), yet `min_scan` returns `(5+0i, 0)`,
not that NaN element with index 1: the element's ordering key is `+∞` (hypot
semantics of `std::abs`), so the IEEE "unless" comparison has no NaN operand,
the update rule does not fire, and the scan does not stop there. -/
theorem nan_complex_inf_component_not_selected :
    cIsNan (FP.fin 5, FP.fin 0) = false ∧
    cIsNan (FP.inf true, FP.nan) = true ∧
    minScan CxDom [(FP.fin 5, FP.fin 0), (FP.inf true, FP.nan)] = ((FP.fin 5, FP.fin 0), 0) ∧
    minScan CxDom [(FP.fin 5, FP.fin 0), (FP.inf true, FP.nan)] ≠ ((FP.inf true, FP.nan), 1) := by
  have hs1 : fpGe (CxDom.key (FP.fin 5, FP.fin 0)) (CxDom.key (FP.fin 5, FP.fin 0)) = true := by
    simp [CxDom, cAbs, fpGe, fpLe]
  have hs2 : fpGe (CxDom.key (FP.inf true, FP.nan)) (CxDom.key (FP.fin 5, FP.fin 0)) = true := by
    simp [CxDom, cAbs, fpGe, fpLe]
  have h3 : minScan CxDom [(FP.fin 5, FP.fin 0), (FP.inf true, FP.nan)]
      = ((FP.fin 5, FP.fin 0), 0) := by
    show scanGo CxDom fpGe [(FP.fin 5, FP.fin 0), (FP.inf true, FP.nan)] (FP.fin 5, FP.fin 0) 0 0
      = ((FP.fin 5, FP.fin 0), 0)
    rw [scanGo_cons_skip CxDom fpGe _ 0 0 hs1, scanGo_cons_skip CxDom fpGe _ 0 1 hs2, scanGo_nil]
  exact ⟨rfl, rfl, h3, by rw [h3]; decide⟩

/-- On a lane with no NaN element the break branch of the scan is never
taken: the scan coincides with the same loop with the break removed. -/
theorem scanGo_eq_noBreak (D : Dom α) (cmp : FP → FP → Bool) :
    ∀ (l : List α) (b : α) (bi i : Nat), (∀ y ∈ l, D.isnan y = false) →
      scanGo D cmp l b bi i = scanNoBreak D cmp l b bi i := by
  intro l
  induction l with
  | nil => intro b bi i _; rfl
  | cons v rest ih =>
    intro b bi i hl
    have hv : D.isnan v = false := hl v (List.mem_cons_self v rest)
    have hrest : ∀ y ∈ rest, D.isnan y = false :=
      fun y hy => hl y (List.mem_cons_of_mem v hy)
    by_cases hc : cmp (D.key v) (D.key b) = true
    · rw [scanGo_cons_skip D cmp rest bi i hc]
      simp only [scanNoBreak, hc, if_true]
      exact ih b bi (i + 1) hrest
    · have hcf : cmp (D.key v) (D.key b) = false := by
        cases hcc : cmp (D.key v) (D.key b)
        · rfl
        · exact absurd hcc hc
      rw [scanGo_cons_update D cmp rest bi i hcf hv]
      simp only [scanNoBreak, hcf, Bool.false_eq_true, if_false]
      exact ih v i (i + 1) hrest

/-- C10: the dispatch also covers `bool` arrays (`ScalarType::Bool`, a domain
the spec's list of numeric domains omits).  Boolean lanes are scanned with
the identity ordering key after integral promotion, so the order is
`false < true`; min/max select the first occurrence of the extremal value,
and the NaN break branch is unreachable (`_isnan` is constantly false): the
scan equals the break-free loop under every comparison. -/
theorem bool_lane_scan (x : Bool) (xs : List Bool) :
    FirstExtremal BoolDom fpLe (x :: xs) (minLane BoolDom x xs) ∧
    FirstExtremal BoolDom fpGe (x :: xs) (maxLane BoolDom x xs) ∧
    fpLe (BoolDom.key false) (BoolDom.key true) = true ∧
    fpLe (BoolDom.key true) (BoolDom.key false) = false ∧
    (∀ cmp : FP → FP → Bool,
      scanGo BoolDom cmp (x :: xs) x 0 0 = scanNoBreak BoolDom cmp (x :: xs) x 0 0) := by
  refine ⟨?_, ?_, by decide, by decide, ?_⟩
  · exact laneScan_firstExtremal BoolDom fpGe fpLe (fun a b => rfl)
      fpLe_total fpLe_trans fpLe_refl x xs (fun y _ => rfl)
  · exact laneScan_firstExtremal BoolDom fpLe fpGe (fun a b => rfl)
      fpGe_total fpGe_trans fpGe_refl x xs (fun y _ => rfl)
  · intro cmp
    exact scanGo_eq_noBreak BoolDom cmp (x :: xs) x 0 0 (fun y _ => rfl)

/-- The index returned by the scan is the incoming best index or lies in
`[i, i + l.length)`. -/
theorem scanGo_snd_bound (D : Dom α) (cmp : FP → FP → Bool) :
    ∀ (l : List α) (b : α) (bi i : Nat),
      (scanGo D cmp l b bi i).2 = bi ∨
      (i ≤ (scanGo D cmp l b bi i).2 ∧ (scanGo D cmp l b bi i).2 < i + l.length) := by
  intro l
  induction l with
  | nil => intro b bi i; exact Or.inl rfl
  | cons v rest ih =>
    intro b bi i
    by_cases hc : cmp (D.key v) (D.key b) = true
    · rw [scanGo_cons_skip D cmp rest bi i hc]
      rcases ih b bi (i + 1) with h | ⟨h1, h2⟩
      · exact Or.inl h
      · refine Or.inr ⟨by omega, ?_⟩
        simp only [List.length_cons]
        omega
    · have hcf : cmp (D.key v) (D.key b) = false := by
        cases hcc : cmp (D.key v) (D.key b)
        · rfl
        · exact absurd hcc hc
      by_cases hn : D.isnan v = true
      · rw [scanGo_cons_break D cmp rest bi i hcf hn]
        refine Or.inr ⟨le_refl i, ?_⟩
        simp only [List.length_cons]
        omega
      · have hnf : D.isnan v = false := by
          cases hnn : D.isnan v
          · rfl
          · exact absurd hnn hn
        rw [scanGo_cons_update D cmp rest bi i hcf hnf]
        rcases ih v i (i + 1) with h | ⟨h1, h2⟩
        · refine Or.inr ⟨by omega, ?_⟩
          rw [h]
          simp only [List.length_cons]
          omega
        · refine Or.inr ⟨by omega, ?_⟩
          simp only [List.length_cons]
          omega

/-- The index written for a nonempty lane is always within the lane. -/
theorem scanLane_snd_lt [Inhabited α] (D : Dom α) (cmp : FP → FP → Bool)
    (l : List α) (h : l ≠ []) : (scanLane D cmp l).2 < l.length := by
  cases l with
  | nil => exact absurd rfl h
  | cons x xs =>
    show (laneScan D cmp x xs).2 < (x :: xs).length
    rw [laneScan]
    rcases scanGo_snd_bound D cmp (x :: xs) x 0 0 with h0 | ⟨_, h2⟩
    · rw [h0]
      simp
    · simpa using h2

/-! ## The kernel level: tensors, checks, shape bookkeeping -/

/-- The element types a tensor can carry, as relevant to the dispatch macro
`AT_DISPATCH_ALL_TYPES_AND_COMPLEX_AND(ScalarType::Bool, ...)` and the
`kLong` index-type requirement. -/
inductive ScalarType where
  | Bool | Byte | Char | Short | Int | Long
  | Float | Double | ComplexFloat | ComplexDouble
deriving DecidableEq

/-- The two error conditions surfaced by the kernels before any computation:
an invalid reduction axis or an output element-type mismatch. -/
inductive KErr where
  | InvalidAxis | TypeMismatch
deriving DecidableEq

/-- A tensor: a physical element type tag, a shape, and the backing data in
row-major (contiguous) order. -/
structure MTensor (α : Type) where
  stype : ScalarType
  shape : List Nat
  data : List α

/-- Modelled from the spec: axis-index normalisation ("negative-axis
wrap-around", §1 an external collaborator) - `maybe_wrap_dim` maps `dim`
into `[0, rank)`, treating rank-0 tensors as rank 1, and fails with the
invalid-axis error when `dim` is outside `[-rank, rank)`. -/
def maybeWrapDim (dim : Int) (rank : Nat) : Except KErr Nat :=
  if dim < -(((max rank 1 : Nat) : Int)) ∨ ((max rank 1 : Nat) : Int) ≤ dim then
    Except.error KErr.InvalidAxis
  else if dim < 0 then Except.ok (dim + ((max rank 1 : Nat) : Int)).toNat
  else Except.ok dim.toNat

/-- Modelled from the spec: the reduction axis "must be a valid, *non-empty*
dimension (extent ≥ 1) - reducing over a zero-length axis is disallowed /
guarded" (§3), failing with the invalid-axis error when the extent is zero
(§4.1, §7).  The guard itself lives outside this file's source
(`ensure_nonempty_size` merely reads the extent, treating rank-0 tensors as
extent 1). -/
def checkedDimSize (shape : List Nat) (d : Nat) : Except KErr Nat :=
  let sz := if shape.isEmpty then 1 else shape.getD d 0
  if sz = 0 then Except.error KErr.InvalidAxis else Except.ok sz

/-- `ensure_nonempty_vec`: a rank-0 tensor's size vector is treated as `[1]`
(§4.1 step 1 computes the target shape from it). -/
def ensureNonemptyVec (s : List Nat) : List Nat := if s.isEmpty then [1] else s

/-- The conditional unsqueeze of one output buffer (source lines 28-35): when
`keepdim` is false and the buffer's current rank satisfies
`ndimension() >= dim`, a size-1 dimension is inserted at position `dim`
before the resize; otherwise the buffer's shape is left alone. -/
def unsqueezeStep (s : List Nat) (d : Nat) (keepdim : Bool) : List Nat :=
  if !keepdim && decide (s.length ≥ d) then s.insertIdx d 1 else s

/-- Modelled from the spec: `squeeze(buffer, axis)` removes the dimension at
`axis` when it has extent 1 (§6). -/
def squeezeShape (s : List Nat) (d : Nat) : List Nat :=
  if s.getD d 0 = 1 then s.eraseIdx d else s

/-- Modelled from the spec: `resize(buffer, shape)` reallocates the backing
storage to the new shape; "contents become undefined until the scan writes
them" (§4.1 step 3), modelled as default-filled. -/
def resizeT [Inhabited α] (t : MTensor α) (s : List Nat) : MTensor α :=
  { t with shape := s, data := List.replicate s.prod default }

/-- The lanes the iteration plan enumerates, for an input of (nonempty)
shape `s1 ++ [extent] ++ s2` stored row-major: `outer = s1.prod` and
`inner = s2.prod` index the lanes, and within a lane the axis stride is
`inner`, so lane `(a, b)` reads `data[(a * extent + j) * inner + b]` for
`j < extent` - pointer arithmetic of the source loop with the row-major
strides the iteration engine supplies. -/
def lanesOf [Inhabited α] (data : List α) (outer extent inner : Nat) : List (List α) :=
  (List.range outer).flatMap (fun a =>
    (List.range inner).map (fun b =>
      (List.range extent).map (fun j => data.getD ((a * extent + j) * inner + b) default)))

/-- `compare_base_kernel` (source lines 17-70): compute the target shape
(the input's sizes with the reduction dim set to 1), conditionally unsqueeze
each output buffer when `keepdim` is false, resize both outputs to the
target shape, run the per-lane scan `cmp` over every lane writing the
selected value and index, and finally squeeze the reduction dim back out of
both outputs when `keepdim` is false. -/
def compare_base_kernel [Inhabited α] (D : Dom α) (cmp : FP → FP → Bool)
    (result : MTensor α) (indices : MTensor Nat) (self : MTensor α)
    (dim : Nat) (keepdim : Bool) (self_dim_size : Nat) : MTensor α × MTensor Nat :=
  let self_sizes := (ensureNonemptyVec self.shape).set dim 1
  let result1 : MTensor α := { result with shape := unsqueezeStep result.shape dim keepdim }
  let indices1 : MTensor Nat := { indices with shape := unsqueezeStep indices.shape dim keepdim }
  let result2 := resizeT result1 self_sizes
  let indices2 := resizeT indices1 self_sizes
  let s' := ensureNonemptyVec self.shape
  let lanes := lanesOf self.data ((s'.take dim).prod) self_dim_size ((s'.drop (dim + 1)).prod)
  let scans := lanes.map (scanLane D cmp)
  let result3 : MTensor α := { result2 with data := scans.map Prod.fst }
  let indices3 : MTensor Nat := { indices2 with data := scans.map Prod.snd }
  if keepdim then
    (result3, indices3)
  else
    ({ result3 with shape := squeezeShape result3.shape dim },
      { indices3 with shape := squeezeShape indices3.shape dim })

/-- `min_kernel_impl` (source lines 72-107): wrap the dim, read the (checked)
extent, check the output element types (`TORCH_CHECK` at lines 81-82: the
value output must have the input's element type and the index output must be
`kLong`), then run `compare_base_kernel` with the min scan.  Every check
precedes every buffer mutation; an error return leaves the caller's buffers
untouched. -/
def min_kernel_impl [Inhabited α] (D : Dom α)
    (result : MTensor α) (indice : MTensor Nat) (self : MTensor α)
    (dim : Int) (keepdim : Bool) : Except KErr (MTensor α × MTensor Nat) :=
  match maybeWrapDim dim self.shape.length with
  | Except.error e => Except.error e
  | Except.ok wrap_dim =>
    match checkedDimSize self.shape wrap_dim with
    | Except.error e => Except.error e
    | Except.ok self_dim_size =>
      if result.stype = self.stype ∧ indice.stype = ScalarType.Long then
        Except.ok (compare_base_kernel D fpGe result indice self wrap_dim keepdim self_dim_size)
      else
        Except.error KErr.TypeMismatch

/-- `max_kernel_impl` (source lines 109-144): identical to `min_kernel_impl`
with the max scan comparison. -/
def max_kernel_impl [Inhabited α] (D : Dom α)
    (result : MTensor α) (indice : MTensor Nat) (self : MTensor α)
    (dim : Int) (keepdim : Bool) : Except KErr (MTensor α × MTensor Nat) :=
  match maybeWrapDim dim self.shape.length with
  | Except.error e => Except.error e
  | Except.ok wrap_dim =>
    match checkedDimSize self.shape wrap_dim with
    | Except.error e => Except.error e
    | Except.ok self_dim_size =>
      if result.stype = self.stype ∧ indice.stype = ScalarType.Long then
        Except.ok (compare_base_kernel D fpLe result indice self wrap_dim keepdim self_dim_size)
      else
        Except.error KErr.TypeMismatch

/-! ## Helper lemmas about the kernel pipeline -/

theorem maybeWrapDim_nat (d rank : Nat) (h : d < rank) :
    maybeWrapDim (d : Int) rank = Except.ok d := by
  have hmax : max rank 1 = rank := Nat.max_eq_left (by omega)
  have h1 : ¬((d : Int) < -(((max rank 1 : Nat) : Int)) ∨ ((max rank 1 : Nat) : Int) ≤ (d : Int)) := by
    rw [hmax]
    push_neg
    constructor <;> omega
  have h2 : ¬((d : Int) < 0) := by omega
  rw [maybeWrapDim, if_neg h1, if_neg h2]
  simp

theorem checkedDimSize_ok (s : List Nat) (d : Nat) (hd : d < s.length)
    (h : s.getD d 0 ≠ 0) : checkedDimSize s d = Except.ok (s.getD d 0) := by
  have hne : s.isEmpty = false := by
    cases s with
    | nil => simp at hd
    | cons a l => rfl
  rw [checkedDimSize]
  simp only [hne, Bool.false_eq_true, if_false]
  rw [if_neg h]

theorem ensureNonemptyVec_eq (s : List Nat) (h : s ≠ []) : ensureNonemptyVec s = s := by
  rw [ensureNonemptyVec, if_neg]
  simpa using h

theorem getD_set_self (s : List Nat) (d a : Nat) (h : d < s.length) :
    (s.set d a).getD d 0 = a := by
  induction s generalizing d with
  | nil => simp at h
  | cons x l ih =>
    cases d with
    | zero => rfl
    | succ d' =>
      simp only [List.set, List.getD, List.getElem?_cons_succ]
      exact ih d' (by simpa using h)

theorem eraseIdx_set (s : List Nat) (d a : Nat) :
    (s.set d a).eraseIdx d = s.eraseIdx d := by
  induction s generalizing d with
  | nil => rfl
  | cons x l ih =>
    cases d with
    | zero => rfl
    | succ d' =>
      simp only [List.set, List.eraseIdx]
      rw [ih d']

/-- The successful run of `min_kernel_impl` under valid axis and matching
element types. -/
theorem min_kernel_ok [Inhabited α] (D : Dom α)
    (result : MTensor α) (indice : MTensor Nat) (self : MTensor α)
    (d : Nat) (keepdim : Bool)
    (hd : d < self.shape.length) (hext : self.shape.getD d 0 ≠ 0)
    (hty1 : result.stype = self.stype) (hty2 : indice.stype = ScalarType.Long) :
    min_kernel_impl D result indice self (d : Int) keepdim =
      Except.ok (compare_base_kernel D fpGe result indice self d keepdim
        (self.shape.getD d 0)) := by
  simp only [min_kernel_impl, maybeWrapDim_nat d self.shape.length hd,
    checkedDimSize_ok self.shape d hd hext]
  rw [if_pos ⟨hty1, hty2⟩]

/-- The successful run of `max_kernel_impl` under valid axis and matching
element types. -/
theorem max_kernel_ok [Inhabited α] (D : Dom α)
    (result : MTensor α) (indice : MTensor Nat) (self : MTensor α)
    (d : Nat) (keepdim : Bool)
    (hd : d < self.shape.length) (hext : self.shape.getD d 0 ≠ 0)
    (hty1 : result.stype = self.stype) (hty2 : indice.stype = ScalarType.Long) :
    max_kernel_impl D result indice self (d : Int) keepdim =
      Except.ok (compare_base_kernel D fpLe result indice self d keepdim
        (self.shape.getD d 0)) := by
  simp only [max_kernel_impl, maybeWrapDim_nat d self.shape.length hd,
    checkedDimSize_ok self.shape d hd hext]
  rw [if_pos ⟨hty1, hty2⟩]

/-- The value output's shape after `compare_base_kernel`. -/
theorem compare_base_kernel_fst_shape [Inhabited α] (D : Dom α) (cmp : FP → FP → Bool)
    (result : MTensor α) (indices : MTensor Nat) (self : MTensor α)
    (dim : Nat) (keepdim : Bool) (sz : Nat) :
    (compare_base_kernel D cmp result indices self dim keepdim sz).1.shape =
      (if keepdim then (ensureNonemptyVec self.shape).set dim 1
       else squeezeShape ((ensureNonemptyVec self.shape).set dim 1) dim) := by
  cases keepdim <;> simp [compare_base_kernel, resizeT]

/-- The index output's shape after `compare_base_kernel`. -/
theorem compare_base_kernel_snd_shape [Inhabited α] (D : Dom α) (cmp : FP → FP → Bool)
    (result : MTensor α) (indices : MTensor Nat) (self : MTensor α)
    (dim : Nat) (keepdim : Bool) (sz : Nat) :
    (compare_base_kernel D cmp result indices self dim keepdim sz).2.shape =
      (if keepdim then (ensureNonemptyVec self.shape).set dim 1
       else squeezeShape ((ensureNonemptyVec self.shape).set dim 1) dim) := by
  cases keepdim <;> simp [compare_base_kernel, resizeT]

/-- The index output's data after `compare_base_kernel`: the per-lane scan
indices, in lane order. -/
theorem compare_base_kernel_snd_data [Inhabited α] (D : Dom α) (cmp : FP → FP → Bool)
    (result : MTensor α) (indices : MTensor Nat) (self : MTensor α)
    (dim : Nat) (keepdim : Bool) (sz : Nat) :
    (compare_base_kernel D cmp result indices self dim keepdim sz).2.data =
      ((lanesOf self.data (((ensureNonemptyVec self.shape).take dim).prod) sz
          (((ensureNonemptyVec self.shape).drop (dim + 1)).prod)).map
        (scanLane D cmp)).map Prod.snd := by
  cases keepdim <;> simp [compare_base_kernel, resizeT]

/-- Every lane the iteration plan enumerates has exactly `extent` elements. -/
theorem lanesOf_mem_length [Inhabited α] (data : List α) (outer extent inner : Nat)
    (lane : List α) (h : lane ∈ lanesOf data outer extent inner) :
    lane.length = extent := by
  simp only [lanesOf, List.mem_flatMap, List.mem_map] at h
  obtain ⟨a, _, b, _, rfl⟩ := h
  simp

/-! ## Claim theorems at the kernel level -/

/-- C3 counterexample: with `keepdim = false`, axis 1 and an output buffer of
rank exactly 1 - rank equal to the axis, which the claim says is left
alone - the source's condition `ndimension() >= dim` holds and the buffer
*is* unsqueezed. -/
theorem unsqueeze_fires_at_rank_eq_axis :
    unsqueezeStep [7] 1 false = [7, 1] ∧ unsqueezeStep [7] 1 false ≠ [7] := by
  constructor
  · decide
  · decide

/-- C3 as amended: when `keepdim` is false a temporary size-1 dimension is
inserted at position `axis` exactly when the buffer's current rank is at
least `axis` (the source's `ndimension() >= dim`, which is precisely "the
insertion position is valid"); a buffer of rank strictly less than `axis`
is left alone, and nothing is unsqueezed when `keepdim` is true. -/
theorem unsqueeze_iff_rank_ge_axis (s : List Nat) (d : Nat) :
    (d ≤ s.length → unsqueezeStep s d false = s.insertIdx d 1) ∧
    (s.length < d → unsqueezeStep s d false = s) ∧
    unsqueezeStep s d true = s := by
  refine ⟨?_, ?_, rfl⟩
  · intro h
    have hc : s.length ≥ d := h
    simp [unsqueezeStep, hc]
  · intro h
    have hc : ¬(s.length ≥ d) := by omega
    simp [unsqueezeStep, hc]

/-- Witness for the amended C3 at rank 2, axis 1. -/
theorem unsqueeze_iff_rank_ge_axis_witness :
    unsqueezeStep [3, 4] 1 false = ([3, 4] : List Nat).insertIdx 1 1 :=
  (unsqueeze_iff_rank_ge_axis [3, 4] 1).1 (by decide)

/-- C4: after a successful min/max reduction on an input of rank `r` with
valid axis `d`, both outputs have the input's shape with dimension `d` set
to extent 1 when `keepdim` is true, and with dimension `d` removed
(rank `r - 1`) when `keepdim` is false; the two outputs always end with
identical shape. -/
theorem output_shapes (D : Dom α) [Inhabited α]
    (result : MTensor α) (indice : MTensor Nat) (self : MTensor α)
    (d : Nat) (keepdim : Bool)
    (hd : d < self.shape.length) (hext : self.shape.getD d 0 ≠ 0)
    (hty1 : result.stype = self.stype) (hty2 : indice.stype = ScalarType.Long) :
    ∃ p q,
      min_kernel_impl D result indice self (d : Int) keepdim = Except.ok p ∧
      max_kernel_impl D result indice self (d : Int) keepdim = Except.ok q ∧
      p.1.shape = (if keepdim then self.shape.set d 1 else self.shape.eraseIdx d) ∧
      p.2.shape = p.1.shape ∧ q.1.shape = p.1.shape ∧ q.2.shape = p.1.shape ∧
      p.1.shape.length = (if keepdim then self.shape.length else self.shape.length - 1) := by
  have hne : self.shape ≠ [] := by
    intro hnil
    rw [hnil] at hd
    simp at hd
  have hennv : ensureNonemptyVec self.shape = self.shape := ensureNonemptyVec_eq _ hne
  have hshape : (if keepdim then (ensureNonemptyVec self.shape).set d 1
      else squeezeShape ((ensureNonemptyVec self.shape).set d 1) d)
      = (if keepdim then self.shape.set d 1 else self.shape.eraseIdx d) := by
    rw [hennv]
    cases keepdim
    · simp only [Bool.false_eq_true, if_false]
      rw [squeezeShape, if_pos (getD_set_self self.shape d 1 hd), eraseIdx_set]
    · simp only [if_true]
  refine ⟨_, _, min_kernel_ok D result indice self d keepdim hd hext hty1 hty2,
    max_kernel_ok D result indice self d keepdim hd hext hty1 hty2, ?_, ?_, ?_, ?_, ?_⟩
  · rw [compare_base_kernel_fst_shape, hshape]
  · rw [compare_base_kernel_snd_shape, compare_base_kernel_fst_shape]
  · rw [compare_base_kernel_fst_shape, compare_base_kernel_fst_shape]
  · rw [compare_base_kernel_snd_shape, compare_base_kernel_fst_shape]
  · rw [compare_base_kernel_fst_shape, hshape]
    cases keepdim
    · simp only [Bool.false_eq_true, if_false]
      rw [List.length_eraseIdx, if_pos hd]
    · simp only [if_true, List.length_set]

/-- Witness for C4: the spec's scenario array `[[1,5,2],[9,0,3]]`, axis 1,
`keepdim = false`: both outputs end with shape `[2]`. -/
theorem output_shapes_witness :
    ∃ p q,
      min_kernel_impl IntDom (⟨ScalarType.Long, [], []⟩ : MTensor ℤ)
          (⟨ScalarType.Long, [], []⟩ : MTensor Nat)
          (⟨ScalarType.Long, [2, 3], [1, 5, 2, 9, 0, 3]⟩ : MTensor ℤ)
          ((1 : Nat) : Int) false = Except.ok p ∧
      max_kernel_impl IntDom (⟨ScalarType.Long, [], []⟩ : MTensor ℤ)
          (⟨ScalarType.Long, [], []⟩ : MTensor Nat)
          (⟨ScalarType.Long, [2, 3], [1, 5, 2, 9, 0, 3]⟩ : MTensor ℤ)
          ((1 : Nat) : Int) false = Except.ok q ∧
      p.1.shape = [2] ∧ p.2.shape = p.1.shape ∧ q.1.shape = p.1.shape ∧
      q.2.shape = p.1.shape ∧ p.1.shape.length = 1 :=
  output_shapes IntDom _ _ _ 1 false (by decide) (by decide) rfl rfl

/-- C5: every index the kernels write to the index output lies in
`[0, extent(axis))` (indices are naturals here, so the lower bound is
inherent), in every element domain and regardless of NaNs. -/
theorem index_output_bounds [Inhabited α] (D : Dom α)
    (result : MTensor α) (indice : MTensor Nat) (self : MTensor α)
    (d : Nat) (keepdim : Bool)
    (hd : d < self.shape.length) (hext : self.shape.getD d 0 ≠ 0)
    (hty1 : result.stype = self.stype) (hty2 : indice.stype = ScalarType.Long) :
    ∀ p, (min_kernel_impl D result indice self (d : Int) keepdim = Except.ok p ∨
          max_kernel_impl D result indice self (d : Int) keepdim = Except.ok p) →
      ∀ v ∈ p.2.data, v < self.shape.getD d 0 := by
  intro p hp v hv
  have hbound : ∀ (cmp : FP → FP → Bool),
      p = compare_base_kernel D cmp result indice self d keepdim (self.shape.getD d 0) →
      v ∈ p.2.data → v < self.shape.getD d 0 := by
    intro cmp hpe hv
    subst hpe
    rw [compare_base_kernel_snd_data] at hv
    simp only [List.mem_map] at hv
    obtain ⟨pr, ⟨lane, hlane, rfl⟩, rfl⟩ := hv
    have hlen := lanesOf_mem_length _ _ _ _ _ hlane
    have hlane_ne : lane ≠ [] := by
      intro hnil
      rw [hnil] at hlen
      exact hext (by simpa using hlen.symm)
    have hlt := scanLane_snd_lt D cmp lane hlane_ne
    rw [hlen] at hlt
    exact hlt
  rcases hp with h | h
  · rw [min_kernel_ok D result indice self d keepdim hd hext hty1 hty2] at h
    refine hbound fpGe ?_ hv
    injection h with h'
    exact h'.symm
  · rw [max_kernel_ok D result indice self d keepdim hd hext hty1 hty2] at h
    refine hbound fpLe ?_ hv
    injection h with h'
    exact h'.symm

/-- Witness for C5 on the spec's scenario array `[[1,5,2],[9,0,3]]`, axis 1:
the index 1 written for the second lane (the minimum 0 of `[9,0,3]`) is
within `[0, 3)`. -/
theorem index_output_bounds_witness :
    (1 : Nat) ∈ (compare_base_kernel IntDom fpGe (⟨ScalarType.Long, [], []⟩ : MTensor ℤ)
        (⟨ScalarType.Long, [], []⟩ : MTensor Nat)
        (⟨ScalarType.Long, [2, 3], [1, 5, 2, 9, 0, 3]⟩ : MTensor ℤ) 1 false 3).2.data ∧
    (1 : Nat) < 3 :=
  ⟨by decide,
    index_output_bounds IntDom (⟨ScalarType.Long, [], []⟩ : MTensor ℤ)
      (⟨ScalarType.Long, [], []⟩ : MTensor Nat)
      (⟨ScalarType.Long, [2, 3], [1, 5, 2, 9, 0, 3]⟩ : MTensor ℤ) 1 false
      (by decide) (by decide) rfl rfl
      (compare_base_kernel IntDom fpGe (⟨ScalarType.Long, [], []⟩ : MTensor ℤ)
        (⟨ScalarType.Long, [], []⟩ : MTensor Nat)
        (⟨ScalarType.Long, [2, 3], [1, 5, 2, 9, 0, 3]⟩ : MTensor ℤ) 1 false 3)
      (Or.inl (min_kernel_ok IntDom _ _ _ 1 false (by decide) (by decide) rfl rfl))
      1 (by decide)⟩

/-- C6: whenever the value output's element type differs from the input's or
the index output's element type is not the 64-bit integer type, and the axis
checks pass, both kernels fail with the type-mismatch error; the check sits
before `compare_base_kernel`, so no reshape, resize or element write has
happened - the error return leaves the caller's buffers untouched. -/
theorem type_mismatch_before_mutation [Inhabited α] (D : Dom α)
    (result : MTensor α) (indice : MTensor Nat) (self : MTensor α)
    (dim : Int) (keepdim : Bool) (w sz : Nat)
    (hw : maybeWrapDim dim self.shape.length = Except.ok w)
    (hs : checkedDimSize self.shape w = Except.ok sz)
    (hty : ¬(result.stype = self.stype ∧ indice.stype = ScalarType.Long)) :
    min_kernel_impl D result indice self dim keepdim = Except.error KErr.TypeMismatch ∧
    max_kernel_impl D result indice self dim keepdim = Except.error KErr.TypeMismatch := by
  constructor
  · simp only [min_kernel_impl, hw, hs]
    rw [if_neg hty]
  · simp only [max_kernel_impl, hw, hs]
    rw [if_neg hty]

/-- Witness for C6: a `Double` value output against a `Float` input. -/
theorem type_mismatch_before_mutation_witness :
    min_kernel_impl FloatDom (⟨ScalarType.Double, [], []⟩ : MTensor FP)
        (⟨ScalarType.Long, [], []⟩ : MTensor Nat)
        (⟨ScalarType.Float, [1], [FP.fin 0]⟩ : MTensor FP) 0 false
      = Except.error KErr.TypeMismatch ∧
    max_kernel_impl FloatDom (⟨ScalarType.Double, [], []⟩ : MTensor FP)
        (⟨ScalarType.Long, [], []⟩ : MTensor Nat)
        (⟨ScalarType.Float, [1], [FP.fin 0]⟩ : MTensor FP) 0 false
      = Except.error KErr.TypeMismatch :=
  type_mismatch_before_mutation FloatDom _ _ _ 0 false 0 1 rfl rfl (by decide)

/-- C7: whenever the requested axis is out of range for the input's rank, or
the extent along the (wrapped) axis is zero, both kernels fail with the
invalid-axis error before any output mutation. -/
theorem invalid_axis_before_mutation [Inhabited α] (D : Dom α)
    (result : MTensor α) (indice : MTensor Nat) (self : MTensor α)
    (dim : Int) (keepdim : Bool)
    (h : (dim < -((max self.shape.length 1 : Nat) : Int) ∨
          ((max self.shape.length 1 : Nat) : Int) ≤ dim) ∨
         (∃ w, maybeWrapDim dim self.shape.length = Except.ok w ∧
               (if self.shape.isEmpty then 1 else self.shape.getD w 0) = 0)) :
    min_kernel_impl D result indice self dim keepdim = Except.error KErr.InvalidAxis ∧
    max_kernel_impl D result indice self dim keepdim = Except.error KErr.InvalidAxis := by
  rcases h with hoor | ⟨w, hw, hzero⟩
  · have hw : maybeWrapDim dim self.shape.length = Except.error KErr.InvalidAxis := by
      rw [maybeWrapDim, if_pos hoor]
    constructor
    · simp only [min_kernel_impl, hw]
    · simp only [max_kernel_impl, hw]
  · have hcd : checkedDimSize self.shape w = Except.error KErr.InvalidAxis := by
      simp only [checkedDimSize]
      rw [hzero]
      simp
    constructor
    · simp only [min_kernel_impl, hw, hcd]
    · simp only [max_kernel_impl, hw, hcd]

/-- Witness for C7: axis 5 on a rank-1 input. -/
theorem invalid_axis_before_mutation_witness :
    min_kernel_impl FloatDom (⟨ScalarType.Float, [], []⟩ : MTensor FP)
        (⟨ScalarType.Long, [], []⟩ : MTensor Nat)
        (⟨ScalarType.Float, [3], [FP.fin 0, FP.fin 0, FP.fin 0]⟩ : MTensor FP) 5 false
      = Except.error KErr.InvalidAxis ∧
    max_kernel_impl FloatDom (⟨ScalarType.Float, [], []⟩ : MTensor FP)
        (⟨ScalarType.Long, [], []⟩ : MTensor Nat)
        (⟨ScalarType.Float, [3], [FP.fin 0, FP.fin 0, FP.fin 0]⟩ : MTensor FP) 5 false
      = Except.error KErr.InvalidAxis :=
  invalid_axis_before_mutation FloatDom _ _ _ 5 false (Or.inl (by decide))

/-! ## The ternary select kernel (`where_kernel_impl`, source lines 146-162) -/

/-- One element of the byte-condition branch (lines 148-153):
`cond_val ? self_val : other_val` with a single-byte condition, truthy iff
nonzero. -/
def where_byte (c : Nat) (a b : α) : α := if c ≠ 0 then a else b

/-- One element of the native-boolean branch (lines 154-160). -/
def where_bool (c : Bool) (a b : α) : α := if c then a else b

/-- The byte-condition kernel mapped elementwise over the iterator. -/
def where_kernel_byte : List Nat → List α → List α → List α
  | c :: cs, a :: as, b :: bs => where_byte c a b :: where_kernel_byte cs as bs
  | _, _, _ => []

/-- The native-boolean kernel mapped elementwise over the iterator. -/
def where_kernel_bool : List Bool → List α → List α → List α
  | c :: cs, a :: as, b :: bs => where_bool c a b :: where_kernel_bool cs as bs
  | _, _, _ => []

/-- The single-byte 0/1 encoding of a logical boolean condition. -/
def byteOfBool (b : Bool) : Nat := if b then 1 else 0

/-- C8: at every position the select kernel writes `a[i]` when `condition[i]`
is truthy (nonzero byte, resp. true boolean) and `b[i]` otherwise, and the
byte-encoded kernel agrees with the native-boolean kernel extensionally as a
function of the logical condition: the encoding never changes the output. -/
theorem where_select_correct (α : Type) :
    (∀ (c : List Nat) (a b : List α) (i : Nat)
      (hc : i < c.length) (ha : i < a.length) (hb : i < b.length)
      (hr : i < (where_kernel_byte c a b).length),
      (where_kernel_byte c a b).get ⟨i, hr⟩ =
        if c.get ⟨i, hc⟩ ≠ 0 then a.get ⟨i, ha⟩ else b.get ⟨i, hb⟩) ∧
    (∀ (c : List Bool) (a b : List α) (i : Nat)
      (hc : i < c.length) (ha : i < a.length) (hb : i < b.length)
      (hr : i < (where_kernel_bool c a b).length),
      (where_kernel_bool c a b).get ⟨i, hr⟩ =
        if c.get ⟨i, hc⟩ then a.get ⟨i, ha⟩ else b.get ⟨i, hb⟩) ∧
    (∀ (c : List Bool) (a b : List α),
      where_kernel_byte (c.map byteOfBool) a b = where_kernel_bool c a b) := by
  refine ⟨?_, ?_, ?_⟩
  · intro c
    induction c with
    | nil =>
      intro a b i hc
      simp at hc
    | cons c0 cs ih =>
      intro a b i hc ha hb hr
      cases a with
      | nil => simp at ha
      | cons a0 as =>
        cases b with
        | nil => simp at hb
        | cons b0 bs =>
          cases i with
          | zero => rfl
          | succ j =>
            exact ih as bs j (by simpa using hc) (by simpa using ha) (by simpa using hb)
              (by simpa [where_kernel_byte] using hr)
  · intro c
    induction c with
    | nil =>
      intro a b i hc
      simp at hc
    | cons c0 cs ih =>
      intro a b i hc ha hb hr
      cases a with
      | nil => simp at ha
      | cons a0 as =>
        cases b with
        | nil => simp at hb
        | cons b0 bs =>
          cases i with
          | zero => rfl
          | succ j =>
            exact ih as bs j (by simpa using hc) (by simpa using ha) (by simpa using hb)
              (by simpa [where_kernel_bool] using hr)
  · intro c
    induction c with
    | nil =>
      intro a b
      rfl
    | cons c0 cs ih =>
      intro a b
      cases a with
      | nil => rfl
      | cons a0 as =>
        cases b with
        | nil => rfl
        | cons b0 bs =>
          show where_byte (byteOfBool c0) a0 b0 :: where_kernel_byte (cs.map byteOfBool) as bs
              = where_bool c0 a0 b0 :: where_kernel_bool cs as bs
          rw [ih as bs]
          cases c0 <;> rfl

/-- Witness for C8 at position 0 of concrete integer arrays. -/
theorem where_select_correct_witness :
    (where_kernel_byte [1, 0] [10, 20] [30, 40]).get ⟨0, by decide⟩ =
      (if ([1, 0] : List Nat).get ⟨0, by decide⟩ ≠ 0 then ([10, 20] : List ℤ).get ⟨0, by decide⟩
        else ([30, 40] : List ℤ).get ⟨0, by decide⟩) :=
  (where_select_correct ℤ).1 [1, 0] [10, 20] [30, 40] 0 (by decide) (by decide) (by decide)
    (by decide)

/-! ## The infinity predicates (source lines 164-174) -/

/-- `isposinf_kernel_impl`'s elementwise body:
`a == std::numeric_limits<scalar_t>::infinity()`, an IEEE equality. -/
def isposinf_kernel (a : FP) : Bool := fpEq a (FP.inf true)

/-- `isneginf_kernel_impl`'s elementwise body:
`a == -std::numeric_limits<scalar_t>::infinity()`. -/
def isneginf_kernel (a : FP) : Bool := fpEq a (FP.inf false)

/-- C9: `isposinf` is true exactly on `+∞` and `isneginf` exactly on `-∞`:
NaN, every finite value and the opposite infinity all give false.  `FP`
models the values of every dispatched floating type, the reduced-precision
ones included. -/
theorem infinity_predicates_exact :
    (∀ a : FP, isposinf_kernel a = true ↔ a = FP.inf true) ∧
    (∀ a : FP, isneginf_kernel a = true ↔ a = FP.inf false) := by
  constructor
  · intro a
    cases a with
    | nan => simp [isposinf_kernel, fpEq]
    | inf b => cases b <;> simp [isposinf_kernel, fpEq]
    | fin q => simp [isposinf_kernel, fpEq]
  · intro a
    cases a with
    | nan => simp [isneginf_kernel, fpEq]
    | inf b => cases b <;> simp [isneginf_kernel, fpEq]
    | fin q => simp [isneginf_kernel, fpEq]

end TensorCompare
